import Mathlib

/-!
# A verification development of `wordlist-oracle.py`

This file gives a shallow embedding, in Lean 4, of the word-list comparison
core of `wordlist-oracle.py`: the deterministic hash-based sampler
(`should_include`), the obfuscated-dictionary decoder (`load_superdic`,
including the Base64, XOR and UTF-8 layers it relies on), the candidate
stream loader (`load_candidate`), and the aggregate report built in `main`.

Modelling conventions:
* Python `str` values are modelled as `List Nat` of Unicode code points;
  Python `bytes` values as `List Nat` of byte values (each `< 256`).
* Python `int` is `Int` (arbitrary precision, floor division `Int.fdiv`
  matching Python's `//`); nonnegative quantities use `Nat`.
* A run that terminates the process (via `sys.exit` or an uncaught
  exception) is modelled as `Except RunError`; a Python function that can
  only be left by such a termination returns `Except RunError α`.
* Python sets of words are `Finset (List Nat)`.
* `str.upper` and the whitespace predicate of `str.strip` depend on the
  Unicode character tables, which are external to the source; the candidate
  loader is therefore parameterised over an arbitrary per-character
  uppercase map `upperChar` and whitespace predicate `isSpace`, and the
  theorems hold for all instantiations (the concrete `asciiUpper` /
  `asciiSpace` below instantiate them on ASCII for evaluation).
-/

/-! ## SHA-256 over byte lists

The source computes `hashlib.sha256(...).hexdigest()` and reads it with
`int(_, 16)`, i.e. the digest as a big-endian 256-bit unsigned integer.
`sha256Nat` computes that integer directly, from the FIPS 180-4 algorithm,
with 32-bit words represented as `Nat` values reduced mod `2 ^ 32`. -/

/-- Reduce to a 32-bit word. -/
def w32 (n : Nat) : Nat := n % 4294967296

/-- Right rotation of a 32-bit word by `k` bits. -/
def rotr (k n : Nat) : Nat := n / 2 ^ k + n % 2 ^ k * 2 ^ (32 - k)

/-- SHA-256 big sigma 0. -/
def bsig0 (x : Nat) : Nat := rotr 2 x ^^^ rotr 13 x ^^^ rotr 22 x

/-- SHA-256 big sigma 1. -/
def bsig1 (x : Nat) : Nat := rotr 6 x ^^^ rotr 11 x ^^^ rotr 25 x

/-- SHA-256 small sigma 0. -/
def ssig0 (x : Nat) : Nat := rotr 7 x ^^^ rotr 18 x ^^^ x / 2 ^ 3

/-- SHA-256 small sigma 1. -/
def ssig1 (x : Nat) : Nat := rotr 17 x ^^^ rotr 19 x ^^^ x / 2 ^ 10

/-- SHA-256 choice function. -/
def chf (x y z : Nat) : Nat := (x &&& y) ^^^ ((x ^^^ 4294967295) &&& z)

/-- SHA-256 majority function. -/
def majf (x y z : Nat) : Nat := (x &&& y) ^^^ (x &&& z) ^^^ (y &&& z)

/-- The 64 SHA-256 round constants. -/
def K256 : List Nat :=
  [1116352408, 1899447441, 3049323471, 3921009573, 961987163,
   1508970993, 2453635748, 2870763221, 3624381080, 310598401,
   607225278, 1426881987, 1925078388, 2162078206, 2614888103,
   3248222580, 3835390401, 4022224774, 264347078, 604807628,
   770255983, 1249150122, 1555081692, 1996064986, 2554220882,
   2821834349, 2952996808, 3210313671, 3336571891, 3584528711,
   113926993, 338241895, 666307205, 773529912, 1294757372,
   1396182291, 1695183700, 1986661051, 2177026350, 2456956037,
   2730485921, 2820302411, 3259730800, 3345764771, 3516065817,
   3600352804, 4094571909, 275423344, 430227734, 506948616,
   659060556, 883997877, 958139571, 1322822218, 1537002063,
   1747873779, 1955562222, 2024104815, 2227730452, 2361852424,
   2428436474, 2756734187, 3204031479, 3329325298]

/-- The SHA-256 initial hash value, as an 8-tuple of 32-bit words. -/
def H256init : Nat × Nat × Nat × Nat × Nat × Nat × Nat × Nat :=
  (1779033703, 3144134277, 1013904242, 2773480762,
   1359893119, 2600822924, 528734635, 1541459225)

/-- A 64-bit big-endian byte encoding of `n` (the padded bit-length field). -/
def be64 (n : Nat) : List Nat :=
  [n / 2 ^ 56 % 256, n / 2 ^ 48 % 256, n / 2 ^ 40 % 256, n / 2 ^ 32 % 256,
   n / 2 ^ 24 % 256, n / 2 ^ 16 % 256, n / 2 ^ 8 % 256, n % 256]

/-- SHA-256 message padding: append `0x80`, zero bytes up to 56 mod 64, and
the 64-bit big-endian bit length. -/
def sha256Pad (msg : List Nat) : List Nat :=
  msg ++ 128 :: List.replicate ((119 - msg.length % 64) % 64) 0
      ++ be64 (8 * msg.length)

/-- Group bytes into big-endian 32-bit words (the byte count is a multiple
of 4 for every padded message). -/
def bytesToWords : List Nat → List Nat
  | a :: b :: c :: d :: rest => (((a * 256 + b) * 256 + c) * 256 + d) :: bytesToWords rest
  | _ => []

/-- Split a word list into `k` blocks of 16 words. -/
def toBlocks : Nat → List Nat → List (List Nat)
  | 0, _ => []
  | k + 1, ws => ws.take 16 :: toBlocks k (ws.drop 16)

/-- Extend a 16-word block by `k` further message-schedule words. -/
def schedExtend : Nat → List Nat → List Nat
  | 0, ws => ws
  | k + 1, ws =>
    let n := ws.length
    schedExtend k (ws ++ [w32 (ws.getD (n - 16) 0 + ssig0 (ws.getD (n - 15) 0)
      + ws.getD (n - 7) 0 + ssig1 (ws.getD (n - 2) 0))])

/-- One SHA-256 compression round, consuming a `(round constant, schedule
word)` pair. -/
def compressStep (st : Nat × Nat × Nat × Nat × Nat × Nat × Nat × Nat) (kw : Nat × Nat) :
    Nat × Nat × Nat × Nat × Nat × Nat × Nat × Nat :=
  let (a, b, c, d, e, f, g, h) := st
  let t1 := w32 (h + bsig1 e + chf e f g + kw.1 + kw.2)
  let t2 := w32 (bsig0 a + majf a b c)
  (w32 (t1 + t2), a, b, c, w32 (d + t1), e, f, g)

/-- Process one 16-word block: run the 64 rounds and add the result into the
running hash value. -/
def compressBlock (hv : Nat × Nat × Nat × Nat × Nat × Nat × Nat × Nat) (block : List Nat) :
    Nat × Nat × Nat × Nat × Nat × Nat × Nat × Nat :=
  let ws := schedExtend 48 block
  let (a, b, c, d, e, f, g, h) := (K256.zip ws).foldl compressStep hv
  let (a0, b0, c0, d0, e0, f0, g0, h0) := hv
  (w32 (a + a0), w32 (b + b0), w32 (c + c0), w32 (d + d0),
   w32 (e + e0), w32 (f + f0), w32 (g + g0), w32 (h + h0))

/-- The SHA-256 digest of a byte list, as a big-endian 256-bit unsigned
integer — exactly `int(hashlib.sha256(bytes).hexdigest(), 16)`. -/
def sha256Nat (msg : List Nat) : Nat :=
  let ws := bytesToWords (sha256Pad msg)
  let (a, b, c, d, e, f, g, h) := (toBlocks (ws.length / 16) ws).foldl compressBlock H256init
  ((((((a * 2 ^ 32 + b) * 2 ^ 32 + c) * 2 ^ 32 + d) * 2 ^ 32 + e) * 2 ^ 32 + f) * 2 ^ 32 + g)
    * 2 ^ 32 + h

/-! ## UTF-8 encoding and decoding

The source encodes `nonce + word` with `str.encode('utf-8')` before hashing,
and decodes de-obfuscated dictionary bytes with
`bytes.decode('utf-8', errors='replace')`.  `utf8EncodeChar` is the standard
UTF-8 encoding of a Unicode scalar value, written with division/modulus
arithmetic; `utf8DecodeReplace` is CPython's strict UTF-8 decoder (rejecting
overlong forms, surrogates and code points above U+10FFFF) with invalid
input degrading to the replacement character U+FFFD rather than failing. -/

/-- A Unicode scalar value: any code point that is not a surrogate and is
below `0x110000`.  These are exactly the code points `str.encode('utf-8')`
accepts. -/
def validScalar (c : Nat) : Prop := c < 55296 ∨ (57343 < c ∧ c < 1114112)

instance (c : Nat) : Decidable (validScalar c) := by
  unfold validScalar; infer_instance

/-- UTF-8 encoding of one code point (1 to 4 bytes). -/
def utf8EncodeChar (c : Nat) : List Nat :=
  if c < 128 then [c]
  else if c < 2048 then [192 + c / 64, 128 + c % 64]
  else if c < 65536 then [224 + c / 4096, 128 + c / 64 % 64, 128 + c % 64]
  else [240 + c / 262144, 128 + c / 4096 % 64, 128 + c / 64 % 64, 128 + c % 64]

/-- UTF-8 encoding of a code-point sequence, i.e. `str.encode('utf-8')`. -/
def utf8Encode (s : List Nat) : List Nat := s.flatMap utf8EncodeChar

/-- `bytes.decode('utf-8', errors='replace')`: strict UTF-8 decoding with
each invalid byte (or truncated/forbidden sequence) replaced by U+FFFD. -/
def utf8DecodeReplace : List Nat → List Nat
  | [] => []
  | b :: bs =>
    if b < 128 then b :: utf8DecodeReplace bs
    else if b < 194 then 65533 :: utf8DecodeReplace bs
    else if b < 224 then
      match bs with
      | [] => [65533]
      | b2 :: rest =>
        if 128 ≤ b2 ∧ b2 < 192 then
          ((b - 192) * 64 + (b2 - 128)) :: utf8DecodeReplace rest
        else 65533 :: utf8DecodeReplace (b2 :: rest)
    else if b < 240 then
      match bs with
      | [] => [65533]
      | b2 :: rest =>
        if (if b = 224 then 160 ≤ b2 ∧ b2 < 192
            else if b = 237 then 128 ≤ b2 ∧ b2 < 160
            else 128 ≤ b2 ∧ b2 < 192) then
          match rest with
          | [] => [65533]
          | b3 :: rest2 =>
            if 128 ≤ b3 ∧ b3 < 192 then
              ((b - 224) * 4096 + (b2 - 128) * 64 + (b3 - 128)) :: utf8DecodeReplace rest2
            else 65533 :: utf8DecodeReplace (b3 :: rest2)
        else 65533 :: utf8DecodeReplace (b2 :: rest)
    else if b < 245 then
      match bs with
      | [] => [65533]
      | b2 :: rest =>
        if (if b = 240 then 144 ≤ b2 ∧ b2 < 192
            else if b = 244 then 128 ≤ b2 ∧ b2 < 144
            else 128 ≤ b2 ∧ b2 < 192) then
          match rest with
          | [] => [65533]
          | b3 :: rest2 =>
            if 128 ≤ b3 ∧ b3 < 192 then
              match rest2 with
              | [] => [65533]
              | b4 :: rest3 =>
                if 128 ≤ b4 ∧ b4 < 192 then
                  ((b - 240) * 262144 + (b2 - 128) * 4096 + (b3 - 128) * 64 + (b4 - 128))
                    :: utf8DecodeReplace rest3
                else 65533 :: utf8DecodeReplace (b4 :: rest3)
            else 65533 :: utf8DecodeReplace (b3 :: rest2)
        else 65533 :: utf8DecodeReplace (b2 :: rest)
    else 65533 :: utf8DecodeReplace bs

/-! ## Base64

`base64.b64decode` (with its default `validate=False`) discards characters
outside the base64 alphabet, treats `=` as group padding, and raises
`binascii.Error` when the data characters of a group are too few (a group
of one data character, or a group left incomplete at end of input).
`a2bBase64` models this as a fold over the characters carrying the position
inside the current group and the pending bits; `b64encode` is the standard
encoder (used to build dictionary inputs in the round-trip theorems). -/

/-- The base64 alphabet, as ASCII codes: `A-Z`, `a-z`, `0-9`, `+`, `/`. -/
def b64Table : List Nat :=
  [65, 66, 67, 68, 69, 70, 71, 72, 73, 74, 75, 76, 77, 78, 79, 80, 81, 82,
   83, 84, 85, 86, 87, 88, 89, 90, 97, 98, 99, 100, 101, 102, 103, 104,
   105, 106, 107, 108, 109, 110, 111, 112, 113, 114, 115, 116, 117, 118,
   119, 120, 121, 122, 48, 49, 50, 51, 52, 53, 54, 55, 56, 57, 43, 47]

/-- The base64 character for a 6-bit value. -/
def b64char (n : Nat) : Nat := b64Table.getD n 65

/-- The 6-bit value of a base64 character, `none` for characters outside
the alphabet. -/
def b64val (c : Nat) : Option Nat := b64Table.indexOf? c

/-- The core of `base64.b64decode`: `qp` is the position inside the current
four-character group, `pads` the count of padding characters seen for that
group, `pend` the pending bits.  Characters outside the alphabet are
discarded; once the data and padding characters of a group total four,
decoding stops and every remaining input character is ignored (as
`binascii.a2b_base64` does, e.g. `b64decode(b'QQ==A') = b'A'`); a group
left open at end of input is an error (`binascii.Error`). -/
def a2bBase64 : Nat → Nat → Nat → List Nat → Except Unit (List Nat)
  | 0, _, _, [] => .ok []
  | _ + 1, _, _, [] => .error ()
  | qp, pads, pend, c :: cs =>
    if c = 61 then
      if 2 ≤ qp then
        if 4 ≤ qp + (pads + 1) then .ok []
        else a2bBase64 qp (pads + 1) pend cs
      else a2bBase64 qp pads pend cs
    else
      match b64val c with
      | none => a2bBase64 qp pads pend cs
      | some v =>
        match qp with
        | 0 => a2bBase64 1 pads v cs
        | 1 => (a2bBase64 2 pads ((pend * 64 + v) % 16) cs).map ((pend * 64 + v) / 16 :: ·)
        | 2 => (a2bBase64 3 pads ((pend * 64 + v) % 4) cs).map ((pend * 64 + v) / 4 :: ·)
        | _ => (a2bBase64 0 pads 0 cs).map ((pend * 64 + v) :: ·)

/-- `base64.b64decode` on a byte string. -/
def b64decode (bs : List Nat) : Except Unit (List Nat) := a2bBase64 0 0 0 bs

/-- Standard base64 encoding of a byte list (with `=` padding). -/
def b64encode : List Nat → List Nat
  | a :: b :: c :: rest =>
    b64char (a / 4) :: b64char (a % 4 * 16 + b / 16) :: b64char (b % 16 * 4 + c / 64)
      :: b64char (c % 64) :: b64encode rest
  | [a, b] => [b64char (a / 4), b64char (a % 4 * 16 + b / 16), b64char (b % 16 * 4), 61]
  | [a] => [b64char (a / 4), b64char (a % 4 * 16), 61, 61]
  | [] => []

/-! ## The XOR de-obfuscation layer -/

/-- `KEY = b'7AVFU8PP'`, the fixed 8-byte repeating XOR key. -/
def KEY : List Nat := [55, 65, 86, 70, 85, 56, 80, 80]

/-- `bytes(b ^ KEY[i % len(KEY)] for i, b in enumerate(bs))`, with `i`
starting from the given index: each byte is XORed with the key byte at its
position modulo the key length. -/
def xorFrom (i : Nat) : List Nat → List Nat
  | [] => []
  | b :: bs => (b ^^^ KEY.getD (i % 8) 0) :: xorFrom (i + 1) bs

/-! ## Byte-string and string utilities used by the decoder -/

/-- Does `p` occur as a prefix of `l`? -/
def startsWith : List Nat → List Nat → Bool
  | [], _ => true
  | _ :: _, [] => false
  | p :: ps, c :: cs => p = c && startsWith ps cs

/-- `bytes.find` / the first index at which `pat` occurs in `l` (`none`
models Python's `-1`). -/
def findSub (pat : List Nat) : List Nat → Option Nat
  | [] => if startsWith pat [] then some 0 else none
  | c :: cs => if startsWith pat (c :: cs) then some 0 else (findSub pat cs).map (· + 1)

/-- `';1' in rest`-style substring test. -/
def containsSub (pat s : List Nat) : Bool := (findSub pat s).isSome

/-- Prepend a value to the first token of a token list. -/
def consHead (c : Nat) : List (List Nat) → List (List Nat)
  | [] => [[c]]
  | t :: ts => (c :: t) :: ts

/-- `bytes.split(b'\r\n')`: split on each non-overlapping, leftmost
occurrence of the CRLF pair. -/
def splitCRLF : List Nat → List (List Nat)
  | [] => [[]]
  | [c] => [[c]]
  | c :: c2 :: cs =>
    if c = 13 ∧ c2 = 10 then [] :: splitCRLF cs
    else consHead c (splitCRLF (c2 :: cs))

/-- `str.index('=')`: split a code-point sequence at its first `=` (61),
`none` when there is none (where Python raises `ValueError`). -/
def splitFirstEq : List Nat → Option (List Nat × List Nat)
  | [] => none
  | c :: cs =>
    if c = 61 then some ([], cs)
    else (splitFirstEq cs).map (fun p => (c :: p.1, p.2))

/-! ## The sampler `should_include` -/

/-- `MAX_HASH = 2 ** 256`. -/
def MAX_HASH : Nat := 2 ^ 256

/-- The ways a run of the script can terminate without a report: an
unsupported `--language` (exit), a missing `[Words]` section (exit), a
record that is not valid base64 (`binascii.Error`), a decoded record with
no `=` (`ValueError` from `str.index`), or a zero sampling fraction
(`ZeroDivisionError` in `should_include`). -/
inductive RunError : Type where
  | unsupportedLanguage : RunError
  | wordsNotFound : RunError
  | b64Error : RunError
  | noSeparator : RunError
  | zeroDivision : RunError
deriving DecidableEq, Repr

instance exceptDecEq {ε α : Type} [DecidableEq ε] [DecidableEq α] :
    DecidableEq (Except ε α) := fun x y =>
  match x, y with
  | .ok a, .ok b =>
    if h : a = b then .isTrue (congrArg Except.ok h)
    else .isFalse (fun hh => h (Except.ok.inj hh))
  | .error a, .error b =>
    if h : a = b then .isTrue (congrArg Except.error h)
    else .isFalse (fun hh => h (Except.error.inj hh))
  | .ok _, .error _ => .isFalse (fun hh => Except.noConfusion hh)
  | .error _, .ok _ => .isFalse (fun hh => Except.noConfusion hh)

/-- `should_include(word, nonce, fraction)`: true when `fraction == 1`;
otherwise true iff the SHA-256 digest of the UTF-8 encoding of
`nonce + word`, read as a 256-bit unsigned integer, is below
`MAX_HASH // fraction` (Python floor division; a `ZeroDivisionError` for
`fraction == 0`). -/
def should_include (word nonce : List Nat) (fraction : Int) : Except RunError Bool :=
  if fraction = 1 then .ok true
  else if fraction = 0 then .error .zeroDivision
  else .ok (decide ((sha256Nat (utf8Encode (nonce ++ word)) : Int)
    < Int.fdiv (MAX_HASH : Int) fraction))

/-! ## The reference-dictionary loader `load_superdic` -/

/-- The section marker `b'[Words]\r\n'`. -/
def wordsMarker : List Nat := [91, 87, 111, 114, 100, 115, 93, 13, 10]

/-- The record loop of `load_superdic`, over the CRLF-separated records
after the marker, carrying the running `(total, words)` accumulator:
empty records are skipped; each record is base64-decoded, XORed with
`KEY`, decoded as UTF-8 with replacement, and split at its first `=`;
records whose remainder contains `;1` or `;2` are skipped; words of
length 2 to 9 are counted and, when `should_include` accepts them, added
to the set. -/
def superGo (nonce : List Nat) (fraction : Int) :
    List (List Nat) → Nat → Finset (List Nat) → Except RunError (Nat × Finset (List Nat))
  | [], total, words => .ok (total, words)
  | line :: rest, total, words =>
    if line = [] then superGo nonce fraction rest total words
    else
      match b64decode line with
      | .error _ => .error .b64Error
      | .ok raw =>
        match splitFirstEq (utf8DecodeReplace (xorFrom 0 raw)) with
        | none => .error .noSeparator
        | some (word, r2) =>
          if containsSub [59, 49] r2 || containsSub [59, 50] r2 then
            superGo nonce fraction rest total words
          else if 2 ≤ word.length ∧ word.length ≤ 9 then
            match should_include word nonce fraction with
            | .error e => .error e
            | .ok true => superGo nonce fraction rest (total + 1) (insert word words)
            | .ok false => superGo nonce fraction rest (total + 1) words
          else superGo nonce fraction rest total words

/-- `load_superdic(data, nonce, fraction)`: find `b'[Words]\r\n'` in the
raw bytes (exit when absent), then run the record loop on what follows,
returning `(total, words)`. -/
def load_superdic (data nonce : List Nat) (fraction : Int) :
    Except RunError (Nat × Finset (List Nat)) :=
  match findSub wordsMarker data with
  | none => .error .wordsNotFound
  | some idx => superGo nonce fraction (splitCRLF (data.drop (idx + 9))) 0 ∅

/-! ## The candidate loader `load_candidate` -/

/-- `str.strip()` with whitespace decided by `isSpace`. -/
def pyStrip (isSpace : Nat → Bool) (s : List Nat) : List Nat :=
  ((s.dropWhile isSpace).reverse.dropWhile isSpace).reverse

/-- `line.strip().upper()` with the per-character uppercase map
`upperChar` (Python's full case mapping may expand one character to
several). -/
def normalizeLine (upperChar : Nat → List Nat) (isSpace : Nat → Bool) (line : List Nat) :
    List Nat :=
  (pyStrip isSpace line).flatMap upperChar

/-- The line loop of `load_candidate`: each line is stripped and
uppercased; empty or length-invalid words are skipped; the rest are
counted and, when `should_include` accepts them, added to the set. -/
def candGo (upperChar : Nat → List Nat) (isSpace : Nat → Bool) (nonce : List Nat)
    (fraction : Int) :
    List (List Nat) → Nat → Finset (List Nat) → Except RunError (Nat × Finset (List Nat))
  | [], total, words => .ok (total, words)
  | line :: rest, total, words =>
    let word := normalizeLine upperChar isSpace line
    if word = [] ∨ ¬(2 ≤ word.length ∧ word.length ≤ 9) then
      candGo upperChar isSpace nonce fraction rest total words
    else
      match should_include word nonce fraction with
      | .error e => .error e
      | .ok true => candGo upperChar isSpace nonce fraction rest (total + 1) (insert word words)
      | .ok false => candGo upperChar isSpace nonce fraction rest (total + 1) words

/-- `load_candidate(stream, nonce, fraction)` over the stream's lines. -/
def load_candidate (upperChar : Nat → List Nat) (isSpace : Nat → Bool)
    (lines : List (List Nat)) (nonce : List Nat) (fraction : Int) :
    Except RunError (Nat × Finset (List Nat)) :=
  candGo upperChar isSpace nonce fraction lines 0 ∅

/-! ## The report and the run pipeline of `main` -/

/-- Round a rational to the nearest integer, ties to the nearest even
integer (`Rat.floor` is the floor, in executable form). -/
def rndHalfEven (q : ℚ) : ℤ :=
  if q - q.floor < 1 / 2 then q.floor
  else if (1 : ℚ) / 2 < q - q.floor then q.floor + 1
  else if q.floor % 2 = 0 then q.floor else q.floor + 1

/-- Is `q < 2 ^ L` (for a signed exponent `L`), decided on the numerator
and denominator with integer arithmetic only. -/
def qltTwoPow (q : ℚ) (L : Int) : Bool :=
  if 0 ≤ L then q.num < 2 ^ L.toNat * (q.den : Int)
  else q.num * 2 ^ (-L).toNat < (q.den : Int)

/-- Floor base-2 logarithm of `n` (0 at 0 and 1), written by structural
recursion on a fuel argument: halving `n` until it drops below 2. -/
def natLog2Go : Nat → Nat → Nat
  | 0, _ => 0
  | fuel + 1, n => if n < 2 then 0 else natLog2Go fuel (n / 2) + 1

/-- `⌊log₂ n⌋` — `n` itself bounds the number of halvings needed. -/
def natLog2 (n : Nat) : Nat := natLog2Go n n

/-- For `0 < q`, the unique `L` with `2 ^ L ≤ q < 2 ^ (L + 1)`: estimated
from the bit lengths of numerator and denominator, then corrected. -/
def qlog2 (q : ℚ) : Int :=
  let L0 : Int := (natLog2 q.num.natAbs : Int) - (natLog2 q.den : Int)
  if qltTwoPow q L0 then L0 - 1 else L0

/-- Round a positive rational with `2 ^ L ≤ q < 2 ^ (L + 1)` to the
nearest multiple of `2 ^ (L - 52)` (53 significant bits), ties to even. -/
def fl53pos (q : ℚ) : ℚ :=
  let L := qlog2 q
  if L ≤ 52 then
    (rndHalfEven (q * ((2 ^ (52 - L).toNat : ℕ) : ℚ)) : ℚ) / ((2 ^ (52 - L).toNat : ℕ) : ℚ)
  else
    (rndHalfEven (q / ((2 ^ (L - 52).toNat : ℕ) : ℚ)) : ℚ) * ((2 ^ (L - 52).toNat : ℕ) : ℚ)

/-- Round a rational to IEEE-754 binary64 precision (53 significant bits,
nearest, ties to even) — the value a correctly rounded double operation
returns.  The exponent is unbounded: the script's ratios in `[0, 100]`
never reach the overflow or subnormal range, where a real double would
differ. -/
def fl53 (q : ℚ) : ℚ :=
  if q = 0 then 0
  else if 0 < q then fl53pos q
  else -fl53pos (-q)

/-- `round(x, 4)` on a double `x`: the 4-digit decimal nearest the exact
value of `x`, ties to even (a double is never an exact 4-digit tie, so the
tie branch is idle on the script's values); the script prints this decimal
through `json.dumps`. -/
def round4 (q : ℚ) : ℚ := (rndHalfEven (q * 10000) : ℚ) / 10000

/-- `tp / sampled * 100` as the script computes it: an exact integer
quotient rounded to a double, then a correctly rounded multiplication by
100. -/
def pctFloat (tp sampled : Nat) : ℚ := fl53 (fl53 ((tp : ℚ) / sampled) * 100)

/-- The JSON report assembled at the end of `main`: configuration echoes
and aggregate numbers only. -/
structure Report where
  language : String
  nonce : List Nat
  fraction : Int
  reference_total : Nat
  reference_sampled : Nat
  candidate_total : Nat
  candidate_sampled : Nat
  true_positives : Nat
  false_positives : Nat
  false_negatives : Nat
  recall_pct : ℚ
  precision_pct : ℚ
deriving DecidableEq, Repr

/-- Build the report from the two loaders' results, as `main` does:
`tp = len(candidate & ref)`, `fp = len(candidate - ref)`,
`fn = len(ref - candidate)`, with recall and precision guarded by the
emptiness of the respective sampled set.  The percentages round the
double-precision value of `tp / sampled * 100` (`pctFloat`), as the
script's float arithmetic does, to 4 fractional decimal digits. -/
def mkReport (language : String) (nonce : List Nat) (fraction : Int) (refTotal : Nat)
    (ref : Finset (List Nat)) (candTotal : Nat) (cand : Finset (List Nat)) : Report :=
  { language := language
    nonce := nonce
    fraction := fraction
    reference_total := refTotal
    reference_sampled := ref.card
    candidate_total := candTotal
    candidate_sampled := cand.card
    true_positives := (cand ∩ ref).card
    false_positives := (cand \ ref).card
    false_negatives := (ref \ cand).card
    recall_pct :=
      if ref = ∅ then 0
      else round4 (pctFloat (cand ∩ ref).card ref.card)
    precision_pct :=
      if cand = ∅ then 0
      else round4 (pctFloat (cand ∩ ref).card cand.card) }

/-- The `--language` values `main` accepts. -/
def SUPPORTED_LANGUAGES : List String :=
  ["brazilian", "catalan", "deutsch", "english", "english_phonetic", "espanol",
   "francais", "greek", "hebrew", "hollands", "hungarian", "irish", "italiano",
   "latin", "persian", "polish", "portuguese", "romana", "russian",
   "scottishgaelic", "slovak", "suomi", "svenska", "tamil", "turkish"]

/-- The core pipeline of `main` after argument parsing and dictionary
download: reject unsupported languages, load the reference dictionary,
load the candidate stream, and assemble the report.  `main` performs no
validation of `fraction`. -/
def run (upperChar : Nat → List Nat) (isSpace : Nat → Bool) (language : String)
    (fraction : Int) (nonce : List Nat) (dic : List Nat) (stdin : List (List Nat)) :
    Except RunError Report :=
  if language ∈ SUPPORTED_LANGUAGES then
    match load_superdic dic nonce fraction with
    | .error e => .error e
    | .ok (refTotal, ref) =>
      match load_candidate upperChar isSpace stdin nonce fraction with
      | .error e => .error e
      | .ok (candTotal, cand) =>
        .ok (mkReport language nonce fraction refTotal ref candTotal cand)
  else .error .unsupportedLanguage

/-! ## Concrete instantiations for evaluation -/

/-- ASCII uppercase, as a per-character map. -/
def asciiUpper (c : Nat) : List Nat :=
  if 97 ≤ c ∧ c ≤ 122 then [c - 32] else [c]

/-- ASCII whitespace. -/
def asciiSpace (c : Nat) : Bool :=
  c = 32 || c = 9 || c = 10 || c = 13 || c = 11 || c = 12

/-! ## Derived descriptions of the loaders' outputs

These definitions do not model source code; they describe the loaders'
results and appear only in theorem statements (e.g. the list of admitted
words of a candidate stream, and the success predicate of the decoder). -/

/-- The admitted words of a candidate stream: each line stripped and
uppercased, kept when nonempty and of length 2 to 9 — in stream order,
duplicates included. -/
def candAdmitted (upperChar : Nat → List Nat) (isSpace : Nat → Bool)
    (lines : List (List Nat)) : List (List Nat) :=
  lines.filterMap fun line =>
    let w := normalizeLine upperChar isSpace line
    if w = [] ∨ ¬(2 ≤ w.length ∧ w.length ≤ 9) then none else some w

/-- The admitted word of a single record, if any: the word before the
first `=` of the de-obfuscated text, kept when the remainder carries no
variant marker and the length is 2 to 9 (records that fail to decode
contribute nothing; the loader errors out on them anyway). -/
def superRecWord (line : List Nat) : Option (List Nat) :=
  if line = [] then none
  else
    match b64decode line with
    | .error _ => none
    | .ok raw =>
      match splitFirstEq (utf8DecodeReplace (xorFrom 0 raw)) with
      | none => none
      | some (word, r2) =>
        if containsSub [59, 49] r2 || containsSub [59, 50] r2 then none
        else if 2 ≤ word.length ∧ word.length ≤ 9 then some word else none

/-- The admitted words of a record list, in order, duplicates included. -/
def superWords (recs : List (List Nat)) : List (List Nat) :=
  recs.filterMap superRecWord

/-- Rounding to 4 fractional decimal digits with ties away from zero — the
other common reading of "rounded to 4 digits", used only to state that the
program's output matches neither exact-rational convention. -/
def roundHalfUp4 (q : ℚ) : ℚ := ((q * 10000 + 1 / 2).floor : ℚ) / 10000

/-- A sampled candidate set of 16000 distinct one-character words: a
reachable size at which the double-precision percentage visibly differs
from the exact-rational one. -/
def bigCand : Finset (List Nat) :=
  (Finset.range 16000).map ⟨fun i => [i], fun a b h => by simpa using h⟩

/-! ## Basic facts about the sampler -/

theorem should_include_one (w n : List Nat) : should_include w n 1 = .ok true := rfl

theorem should_include_zero (w n : List Nat) :
    should_include w n 0 = .error .zeroDivision := rfl

theorem fdiv_negSucc_pos (m n : Nat) :
    Int.fdiv (Int.ofNat (m + 1)) (Int.negSucc n) = Int.negSucc (m / (n + 1)) := rfl

theorem should_include_neg (w n : List Nat) (f : Int) (hf : f < 0) :
    should_include w n f = .ok false := by
  obtain ⟨k, rfl⟩ := Int.eq_negSucc_of_lt_zero hf
  unfold should_include
  rw [if_neg (by omega), if_neg (by omega)]
  have h1 : Int.fdiv (MAX_HASH : Int) (Int.negSucc k) < 0 := by
    have h2 : (MAX_HASH : Int) = Int.ofNat ((2 ^ 256 - 1) + 1) := by norm_num [MAX_HASH]
    rw [h2, fdiv_negSucc_pos]
    exact Int.negSucc_lt_zero _
  have h3 : (0 : Int) ≤ (sha256Nat (utf8Encode (n ++ w)) : Int) := Int.ofNat_nonneg _
  simp only [Except.ok.injEq]
  exact decide_eq_false (by omega)

/-! ## Invariants of the two loaders -/

theorem superGo_card (n : List Nat) (f : Int) (recs : List (List Nat)) (t : Nat)
    (s : Finset (List Nat)) :
    ∀ t' s', superGo n f recs t s = .ok (t', s') → s'.card + t ≤ t' + s.card := by
  induction recs, t, s using superGo.induct n f with
  | case1 total words =>
    intro t' s' h
    simp only [superGo, Except.ok.injEq, Prod.mk.injEq] at h
    obtain ⟨rfl, rfl⟩ := h
    omega
  | case2 rest total words ih =>
    intro t' s' h
    rw [superGo] at h
    simp only [if_pos rfl] at h
    exact ih t' s' h
  | case3 line rest total words hline a hb =>
    intro t' s' h
    rw [superGo] at h
    simp [hline, hb] at h
  | case4 line rest total words hline raw hb hsplit =>
    intro t' s' h
    rw [superGo] at h
    simp [hline, hb, hsplit] at h
  | case5 line rest total words hline raw hb word r2 hsplit hvar ih =>
    intro t' s' h
    rw [superGo] at h
    simp [hline, hb, hsplit, hvar] at h
    exact ih t' s' h
  | case6 line rest total words hline raw hb word r2 hsplit hvar hlen e hi =>
    intro t' s' h
    rw [superGo] at h
    simp [hline, hb, hsplit, hvar, hlen, hi] at h
  | case7 line rest total words hline raw hb word r2 hsplit hvar hlen hi ih =>
    intro t' s' h
    rw [superGo] at h
    simp [hline, hb, hsplit, hvar, hlen, hi] at h
    have h1 := ih t' s' h
    have h2 := Finset.card_insert_le word words
    omega
  | case8 line rest total words hline raw hb word r2 hsplit hvar hlen hi ih =>
    intro t' s' h
    rw [superGo] at h
    simp [hline, hb, hsplit, hvar, hlen, hi] at h
    have h1 := ih t' s' h
    omega
  | case9 line rest total words hline raw hb word r2 hsplit hvar hlen ih =>
    intro t' s' h
    rw [superGo] at h
    simp [hline, hb, hsplit, hvar, hlen] at h
    exact ih t' s' h

theorem candGo_card (u : Nat → List Nat) (i : Nat → Bool) (n : List Nat) (f : Int)
    (lines : List (List Nat)) :
    ∀ t s t' s', candGo u i n f lines t s = .ok (t', s') → s'.card + t ≤ t' + s.card := by
  induction lines with
  | nil =>
    intro t s t' s' h
    simp only [candGo, Except.ok.injEq, Prod.mk.injEq] at h
    obtain ⟨rfl, rfl⟩ := h
    omega
  | cons line rest ih =>
    intro t s t' s' h
    rw [candGo] at h
    split at h
    · exact ih t s t' s' h
    · split at h
      · cases h
      · have h1 := ih (t + 1) _ t' s' h
        have h2 := Finset.card_insert_le (normalizeLine u i line) s
        omega
      · have h1 := ih (t + 1) s t' s' h
        omega

theorem candGo_false (u : Nat → List Nat) (i : Nat → Bool) (n : List Nat) (f : Int)
    (hf : ∀ w, should_include w n f = .ok false) (lines : List (List Nat)) :
    ∀ t s t' s', candGo u i n f lines t s = .ok (t', s') → s' = s := by
  induction lines with
  | nil =>
    intro t s t' s' h
    simp only [candGo, Except.ok.injEq, Prod.mk.injEq] at h
    exact h.2.symm
  | cons line rest ih =>
    intro t s t' s' h
    rw [candGo] at h
    split at h
    · exact ih t s t' s' h
    · split at h
      · cases h
      · rename_i heq
        rw [hf (normalizeLine u i line)] at heq
        cases heq
      · exact ih (t + 1) s t' s' h

theorem superGo_false (n : List Nat) (f : Int)
    (hf : ∀ w, should_include w n f = .ok false) (recs : List (List Nat)) (t : Nat)
    (s : Finset (List Nat)) :
    ∀ t' s', superGo n f recs t s = .ok (t', s') → s' = s := by
  induction recs, t, s using superGo.induct n f with
  | case1 total words =>
    intro t' s' h
    simp only [superGo, Except.ok.injEq, Prod.mk.injEq] at h
    exact h.2.symm
  | case2 rest total words ih =>
    intro t' s' h
    rw [superGo] at h
    simp only [if_pos rfl] at h
    exact ih t' s' h
  | case3 line rest total words hline a hb =>
    intro t' s' h
    rw [superGo] at h
    simp [hline, hb] at h
  | case4 line rest total words hline raw hb hsplit =>
    intro t' s' h
    rw [superGo] at h
    simp [hline, hb, hsplit] at h
  | case5 line rest total words hline raw hb word r2 hsplit hvar ih =>
    intro t' s' h
    rw [superGo] at h
    simp [hline, hb, hsplit, hvar] at h
    exact ih t' s' h
  | case6 line rest total words hline raw hb word r2 hsplit hvar hlen e hi =>
    intro t' s' h
    rw [hf word] at hi
    cases hi
  | case7 line rest total words hline raw hb word r2 hsplit hvar hlen hi ih =>
    intro t' s' h
    rw [hf word] at hi
    cases hi
  | case8 line rest total words hline raw hb word r2 hsplit hvar hlen hi ih =>
    intro t' s' h
    rw [superGo] at h
    simp [hline, hb, hsplit, hvar, hlen, hi] at h
    exact ih t' s' h
  | case9 line rest total words hline raw hb word r2 hsplit hvar hlen ih =>
    intro t' s' h
    rw [superGo] at h
    simp [hline, hb, hsplit, hvar, hlen] at h
    exact ih t' s' h

theorem candGo_one (u : Nat → List Nat) (i : Nat → Bool) (n : List Nat)
    (lines : List (List Nat)) :
    ∀ t s, candGo u i n 1 lines t s
      = .ok (t + (candAdmitted u i lines).length, s ∪ (candAdmitted u i lines).toFinset) := by
  induction lines with
  | nil => intro t s; simp [candGo, candAdmitted]
  | cons line rest ih =>
    intro t s
    rw [candGo]
    by_cases hc : (normalizeLine u i line = []
        ∨ ¬(2 ≤ (normalizeLine u i line).length ∧ (normalizeLine u i line).length ≤ 9))
    · rw [if_pos hc, ih]
      simp only [candAdmitted, List.filterMap_cons]
      rw [if_pos hc]
    · rw [if_neg hc, should_include_one, ih]
      simp only [candAdmitted, List.filterMap_cons]
      rw [if_neg hc]
      simp only [List.length_cons, List.toFinset_cons, Except.ok.injEq, Prod.mk.injEq]
      constructor
      · omega
      · rw [Finset.union_insert, Finset.insert_union]

theorem superGo_one (n : List Nat) (recs : List (List Nat)) (t : Nat) (s : Finset (List Nat)) :
    ∀ t' s', superGo n 1 recs t s = .ok (t', s') →
      t' = t + (superWords recs).length ∧ s' = s ∪ (superWords recs).toFinset := by
  induction recs, t, s using superGo.induct n 1 with
  | case1 total words =>
    intro t' s' h
    simp only [superGo, Except.ok.injEq, Prod.mk.injEq] at h
    obtain ⟨rfl, rfl⟩ := h
    simp [superWords]
  | case2 rest total words ih =>
    intro t' s' h
    rw [superGo] at h
    simp only [if_pos rfl] at h
    have hw : superRecWord [] = none := rfl
    have h1 := ih t' s' h
    simpa only [superWords, List.filterMap_cons, hw] using h1
  | case3 line rest total words hline a hb =>
    intro t' s' h
    rw [superGo] at h
    simp [hline, hb] at h
  | case4 line rest total words hline raw hb hsplit =>
    intro t' s' h
    rw [superGo] at h
    simp [hline, hb, hsplit] at h
  | case5 line rest total words hline raw hb word r2 hsplit hvar ih =>
    intro t' s' h
    rw [superGo] at h
    simp [hline, hb, hsplit, hvar] at h
    have hw : superRecWord line = none := by
      simp only [superRecWord, if_neg hline, hb, hsplit, if_pos hvar]
    have h1 := ih t' s' h
    simpa only [superWords, List.filterMap_cons, hw] using h1
  | case6 line rest total words hline raw hb word r2 hsplit hvar hlen e hi =>
    intro t' s' h
    rw [should_include_one] at hi
    cases hi
  | case7 line rest total words hline raw hb word r2 hsplit hvar hlen hi ih =>
    intro t' s' h
    rw [superGo] at h
    simp [hline, hb, hsplit, hvar, hlen, hi] at h
    have hw : superRecWord line = some word := by
      simp only [superRecWord, if_neg hline, hb, hsplit, if_neg hvar, if_pos hlen]
    have h1 := ih t' s' h
    simp only [superWords, List.filterMap_cons, hw] at h1 ⊢
    simp only [List.length_cons, List.toFinset_cons]
    constructor
    · omega
    · rw [h1.2, Finset.insert_union, Finset.union_insert]
  | case8 line rest total words hline raw hb word r2 hsplit hvar hlen hi ih =>
    intro t' s' h
    rw [should_include_one] at hi
    cases hi
  | case9 line rest total words hline raw hb word r2 hsplit hvar hlen ih =>
    intro t' s' h
    rw [superGo] at h
    simp [hline, hb, hsplit, hvar, hlen] at h
    have hw : superRecWord line = none := by
      simp only [superRecWord, if_neg hline, hb, hsplit, if_neg hvar, if_neg hlen]
    have h1 := ih t' s' h
    simpa only [superWords, List.filterMap_cons, hw] using h1

set_option maxRecDepth 8000

/-- Claim C4: for every denominator greater than 1 the sampler accepts exactly the
words whose SHA-256 digest of the UTF-8 encoding of salt-then-word, read as
an unsigned 256-bit integer, is below the floor of `2 ^ 256 / denominator`;
being a function of `(word, salt, denominator)` alone, it is deterministic. -/
theorem c4_sampler_hash_threshold (w n : List Nat) (f : Int) (hf : 1 < f) :
    should_include w n f
      = .ok (decide ((sha256Nat (utf8Encode (n ++ w)) : Int)
          < Int.fdiv (MAX_HASH : Int) f)) := by
  unfold should_include
  rw [if_neg (by omega), if_neg (by omega)]

theorem c4_witness :
    should_include [67, 65, 84] [] 2 = .ok true ∧ should_include [] [] 2 = .ok false :=
  ⟨(c4_sampler_hash_threshold [67, 65, 84] [] 2 (by norm_num)).trans (by decide),
   (c4_sampler_hash_threshold [] [] 2 (by norm_num)).trans (by decide)⟩

theorem ratFloor_intFloor (q : ℚ) : q.floor = ⌊q⌋ := by
  rw [Rat.floor_def', Rat.floor_def]

theorem rndHalfEven_abs (x : ℚ) : |(rndHalfEven x : ℚ) - x| ≤ 1 / 2 := by
  unfold rndHalfEven
  simp only [ratFloor_intFloor]
  have h1 : (⌊x⌋ : ℚ) ≤ x := Int.floor_le x
  have h2 : x < ⌊x⌋ + 1 := Int.lt_floor_add_one x
  split_ifs with ha hb hc <;> rw [abs_le] <;> constructor <;> push_cast <;> linarith

theorem round4_close (q : ℚ) :
    ∃ z : ℤ, round4 q = (z : ℚ) / 10000 ∧ |round4 q - q| ≤ 1 / 20000 := by
  refine ⟨rndHalfEven (q * 10000), rfl, ?_⟩
  have h := rndHalfEven_abs (q * 10000)
  rw [round4]
  have h3 : (rndHalfEven (q * 10000) : ℚ) / 10000 - q
      = ((rndHalfEven (q * 10000) : ℚ) - q * 10000) / 10000 := by ring
  rw [h3, abs_div, abs_of_pos (by norm_num : (0 : ℚ) < 10000)]
  linarith [h]

unseal Rat.add Rat.sub Rat.mul Rat.inv in
/-- Claim C5 counterexample: the program rounds the IEEE-754 double value
of the ratio, not the exact ratio.  With 3 true positives in a sampled
candidate set of 16000, the report's precision is 0.0187, while the exact
ratio `0.01875` rounds to 0.0188 under round-half-even and under
round-half-up alike. -/
theorem c5_counterexample :
    (mkReport "deutsch" [] 1 3 {[0], [1], [2]} 16000 bigCand).precision_pct = 187 / 10000
    ∧ round4 ((3 : ℚ) / 16000 * 100) = 188 / 10000
    ∧ roundHalfUp4 ((3 : ℚ) / 16000 * 100) = 188 / 10000
    ∧ ((187 : ℚ) / 10000) ≠ 188 / 10000 := by
  refine ⟨?_, by decide, by decide, by norm_num⟩
  have hsub : ({[0], [1], [2]} : Finset (List Nat)) ⊆ bigCand := by
    intro x hx
    simp only [Finset.mem_insert, Finset.mem_singleton] at hx
    rcases hx with rfl | rfl | rfl
    · exact Finset.mem_map.mpr ⟨0, Finset.mem_range.mpr (by norm_num), rfl⟩
    · exact Finset.mem_map.mpr ⟨1, Finset.mem_range.mpr (by norm_num), rfl⟩
    · exact Finset.mem_map.mpr ⟨2, Finset.mem_range.mpr (by norm_num), rfl⟩
  have hint : (bigCand ∩ ({[0], [1], [2]} : Finset (List Nat))).card = 3 := by
    rw [Finset.inter_eq_right.mpr hsub]
    decide
  have hcard : bigCand.card = 16000 := by
    rw [bigCand, Finset.card_map, Finset.card_range]
  have hne : bigCand ≠ ∅ := by
    intro h
    rw [h, Finset.card_empty] at hcard
    exact absurd hcard (by norm_num)
  simp only [mkReport]
  rw [if_neg hne, hint, hcard]
  decide

/-- Claim C5 amended: recall is the 4-digit decimal rounding of the
double-precision value of `tp / reference_sampled * 100` (correctly
rounded binary64 division and multiplication) when the sampled reference
set is nonempty and `0` otherwise; precision likewise over the candidate
set; the rounding always yields a multiple of `10 ^ -4` within half a
unit in the last place of its argument. -/
theorem c5_percentages (lang : String) (n : List Nat) (f : Int) (rt ct : Nat)
    (ref cand : Finset (List Nat)) :
    ((mkReport lang n f rt ref ct cand).recall_pct
        = if ref.card ≠ 0 then round4 (pctFloat (cand ∩ ref).card ref.card) else 0)
    ∧ ((mkReport lang n f rt ref ct cand).precision_pct
        = if cand.card ≠ 0 then round4 (pctFloat (cand ∩ ref).card cand.card) else 0)
    ∧ (∀ q : ℚ, ∃ z : ℤ, round4 q = (z : ℚ) / 10000 ∧ |round4 q - q| ≤ 1 / 20000) := by
  refine ⟨?_, ?_, round4_close⟩
  · simp only [mkReport]
    by_cases h : ref = ∅
    · rw [if_pos h, if_neg (by simp [h])]
    · rw [if_neg h, if_pos (by simpa [Finset.card_eq_zero] using h)]
  · simp only [mkReport]
    by_cases h : cand = ∅
    · rw [if_pos h, if_neg (by simp [h])]
    · rw [if_neg h, if_pos (by simpa [Finset.card_eq_zero] using h)]

/-- Claim C3: the report consists of configuration echoes and aggregate counts
only, and is a function of the cardinalities of the sampled sets, their
intersection and their differences: two reference sets agreeing on those
cardinalities against the same candidate set produce identical reports, so
the report cannot answer membership of an individual word. -/
theorem c3_report_cardinalities_only (lang : String) (n : List Nat) (f : Int)
    (rt ct : Nat) (C R1 R2 : Finset (List Nat))
    (hcard : R1.card = R2.card)
    (hint : (C ∩ R1).card = (C ∩ R2).card)
    (hdiff : (C \ R1).card = (C \ R2).card)
    (hdiff2 : (R1 \ C).card = (R2 \ C).card) :
    mkReport lang n f rt R1 ct C = mkReport lang n f rt R2 ct C := by
  have hne : (R1 = ∅) ↔ (R2 = ∅) := by
    rw [← Finset.card_eq_zero, ← Finset.card_eq_zero, hcard]
  by_cases h : R1 = ∅
  · rw [h, hne.mp h]
  · have h2 : R2 ≠ ∅ := fun hh => h (hne.mpr hh)
    unfold mkReport
    rw [if_neg h, if_neg h2, hcard, hint, hdiff, hdiff2]

theorem c3_witness :
    mkReport "deutsch" [] 1 5 {[67, 68]} 7 {[65, 66]}
      = mkReport "deutsch" [] 1 5 {[69, 70]} 7 {[65, 66]} :=
  c3_report_cardinalities_only "deutsch" [] 1 5 7 {[65, 66]} {[67, 68]} {[69, 70]}
    (by decide) (by decide) (by decide) (by decide)

/-- Claim C10: in both loaders the sampled set's cardinality never exceeds the
returned total, for every input and every `(salt, denominator)` — duplicate
words inflate the total but collapse in the set. -/
theorem c10_sampled_le_total (data n : List Nat) (f : Int) (u : Nat → List Nat)
    (i : Nat → Bool) (lines : List (List Nat)) (t : Nat) (s : Finset (List Nat)) :
    (load_superdic data n f = .ok (t, s) → s.card ≤ t)
    ∧ (load_candidate u i lines n f = .ok (t, s) → s.card ≤ t) := by
  constructor
  · intro h
    unfold load_superdic at h
    cases hidx : findSub wordsMarker data with
    | none => rw [hidx] at h; cases h
    | some idx =>
      rw [hidx] at h
      have h1 := superGo_card n f _ 0 ∅ t s h
      simpa using h1
  · intro h
    have h1 := candGo_card u i n f lines 0 ∅ t s h
    simpa using h1

theorem c10_witness : ({[67, 65, 84]} : Finset (List Nat)).card ≤ 1 :=
  (c10_sampled_le_total [] [] 1 asciiUpper asciiSpace [[99, 97, 116]] 1
    {[67, 65, 84]}).2 (by decide)

/-- Claim C1 counterexample: `main` does not validate the denominator.  With
denominator `-2` the run performs both loads (totals 1 and 1) and completes
with a report instead of failing with a configuration error. -/
theorem c1_counterexample :
    (run asciiUpper asciiSpace "deutsch" (-2) []
        [91, 87, 111, 114, 100, 115, 93, 13, 10, 100, 65, 65, 67, 101, 119, 61, 61]
        [[99, 97, 116]]).map
      (fun r => (r.reference_total, r.reference_sampled, r.candidate_total,
        r.candidate_sampled)) = .ok (1, 0, 1, 0) := by decide

/-- Claim C1 amended: the code performs no denominator validation.  A negative
denominator raises no error — the sampler rejects every word, loading
proceeds, and any completed run reports empty sampled sets; a zero
denominator makes the sampler itself fail with a division-by-zero error,
which can only happen during loading, not before. -/
theorem c1_amended_no_validation :
    (∀ w n f, f < 0 → should_include w n f = .ok false)
    ∧ (∀ w n, should_include w n 0 = .error .zeroDivision)
    ∧ (∀ u i lang f n dic stdin r, f < 0 → run u i lang f n dic stdin = .ok r →
        r.reference_sampled = 0 ∧ r.candidate_sampled = 0) := by
  refine ⟨should_include_neg, should_include_zero, ?_⟩
  intro u i lang f n dic stdin r hf hrun
  unfold run at hrun
  by_cases hl : lang ∈ SUPPORTED_LANGUAGES
  · rw [if_pos hl] at hrun
    cases hs : load_superdic dic n f with
    | error e => rw [hs] at hrun; cases hrun
    | ok p =>
      obtain ⟨rt, ref⟩ := p
      simp only [hs] at hrun
      cases hc : load_candidate u i stdin n f with
      | error e => rw [hc] at hrun; cases hrun
      | ok q =>
        obtain ⟨ct, cand⟩ := q
        simp only [hc] at hrun
        have href : ref = ∅ := by
          unfold load_superdic at hs
          cases hidx : findSub wordsMarker dic with
          | none => rw [hidx] at hs; cases hs
          | some idx =>
            rw [hidx] at hs
            exact superGo_false n f (fun w => should_include_neg w n f hf) _ 0 ∅ rt ref hs
        have hcand : cand = ∅ := by
          exact candGo_false u i n f (fun w => should_include_neg w n f hf) stdin 0 ∅ ct cand hc
        cases hrun
        constructor
        · simp [mkReport, href]
        · simp [mkReport, hcand]
  · rw [if_neg hl] at hrun
    cases hrun

theorem c1_amended_witness :
    should_include [65, 66] [] (-3) = .ok false
    ∧ should_include [65, 66] [] 0 = .error .zeroDivision
    ∧ (mkReport "deutsch" [] (-2) 1 ∅ 1 ∅).reference_sampled = 0
    ∧ (mkReport "deutsch" [] (-2) 1 ∅ 1 ∅).candidate_sampled = 0 := by
  have h := c1_amended_no_validation
  refine ⟨h.1 [65, 66] [] (-3) (by norm_num), h.2.1 [65, 66] [], ?_, ?_⟩
  · exact (h.2.2 asciiUpper asciiSpace "deutsch" (-2) []
      [91, 87, 111, 114, 100, 115, 93, 13, 10, 100, 65, 65, 67, 101, 119, 61, 61]
      [[99, 97, 116]] (mkReport "deutsch" [] (-2) 1 ∅ 1 ∅) (by norm_num) (by decide)).1
  · exact (h.2.2 asciiUpper asciiSpace "deutsch" (-2) []
      [91, 87, 111, 114, 100, 115, 93, 13, 10, 100, 65, 65, 67, 101, 119, 61, 61]
      [[99, 97, 116]] (mkReport "deutsch" [] (-2) 1 ∅ 1 ∅) (by norm_num) (by decide)).2

/-- Claim C2 counterexample: with denominator 1, a candidate stream repeating the
same word has total 2 but sampled set of size 1 — sampled counts need not
equal totals. -/
theorem c2_counterexample :
    load_candidate asciiUpper asciiSpace [[97, 98], [97, 98]] [] 1 = .ok (2, {[65, 66]})
    ∧ ({[65, 66]} : Finset (List Nat)).card ≠ 2 := by
  constructor <;> decide

/-- Claim C2 amended: with denominator 1 the sampler accepts every `(word, salt)`
pair; each loader's sampled set is then exactly the set of its admitted
words, so the sampled count is the number of distinct admitted words — at
most the total, with equality exactly when no admitted word repeats. -/
theorem c2_amended_fraction_one :
    (∀ w n, should_include w n 1 = .ok true)
    ∧ (∀ u i n lines,
        load_candidate u i lines n 1
          = .ok ((candAdmitted u i lines).length, (candAdmitted u i lines).toFinset))
    ∧ (∀ u i n lines t s, load_candidate u i lines n 1 = .ok (t, s) →
        s.card ≤ t ∧ ((candAdmitted u i lines).Nodup → s.card = t))
    ∧ (∀ data n t s idx, load_superdic data n 1 = .ok (t, s) →
        findSub wordsMarker data = some idx →
        s.card ≤ t
          ∧ ((superWords (splitCRLF (data.drop (idx + 9)))).Nodup → s.card = t)) := by
  refine ⟨should_include_one, ?_, ?_, ?_⟩
  · intro u i n lines
    unfold load_candidate
    rw [candGo_one]
    simp
  · intro u i n lines t s h
    unfold load_candidate at h
    rw [candGo_one] at h
    simp only [Except.ok.injEq, Prod.mk.injEq, Finset.empty_union, Nat.zero_add] at h
    obtain ⟨rfl, rfl⟩ := h
    constructor
    · exact (candAdmitted u i lines).toFinset_card_le
    · intro hd
      exact List.toFinset_card_of_nodup hd
  · intro data n t s idx h hidx
    unfold load_superdic at h
    rw [hidx] at h
    have h1 := superGo_one n _ 0 ∅ t s h
    simp only [Finset.empty_union, Nat.zero_add] at h1
    obtain ⟨rfl, rfl⟩ := h1
    constructor
    · exact (superWords _).toFinset_card_le
    · intro hd
      exact List.toFinset_card_of_nodup hd

theorem c2_amended_witness :
    ({[65, 66], [67, 68]} : Finset (List Nat)).card = 2 :=
  (c2_amended_fraction_one.2.2.1 asciiUpper asciiSpace [] [[97, 98], [99, 100]] 2
    {[65, 66], [67, 68]} (by decide)).2 (by decide)

/-- Claim C7: a decoded record whose text after the first `=` contains `;1` or
`;2` is skipped — no count, no set change; a record without these markers
is not excluded by this rule and proceeds to the length check and sampler. -/
theorem c7_variant_filtering (n : List Nat) (f : Int) (line : List Nat)
    (rest : List (List Nat)) (t : Nat) (s : Finset (List Nat)) (raw word r2 : List Nat)
    (hline : line ≠ []) (hb : b64decode line = .ok raw)
    (hsplit : splitFirstEq (utf8DecodeReplace (xorFrom 0 raw)) = some (word, r2)) :
    ((containsSub [59, 49] r2 || containsSub [59, 50] r2) = true →
      superGo n f (line :: rest) t s = superGo n f rest t s)
    ∧ ((containsSub [59, 49] r2 || containsSub [59, 50] r2) = false →
      superGo n f (line :: rest) t s
        = if 2 ≤ word.length ∧ word.length ≤ 9 then
            match should_include word n f with
            | .error e => .error e
            | .ok true => superGo n f rest (t + 1) (insert word s)
            | .ok false => superGo n f rest (t + 1) s
          else superGo n f rest t s) := by
  constructor
  · intro hvar
    rw [superGo]
    simp only [if_neg hline, hb, hsplit, if_pos hvar]
  · intro hvar
    rw [superGo]
    simp only [if_neg hline, hb, hsplit, hvar, Bool.false_eq_true, if_false]

theorem c7_witness :
    superGo [] 1 [b64encode (xorFrom 0 (utf8Encode [82, 85, 78, 61, 59, 49]))] 0 ∅
      = superGo [] 1 [] 0 ∅ :=
  (c7_variant_filtering [] 1 (b64encode (xorFrom 0 (utf8Encode [82, 85, 78, 61, 59, 49])))
    [] 0 ∅ (xorFrom 0 (utf8Encode [82, 85, 78, 61, 59, 49])) [82, 85, 78] [59, 49]
    (by decide) (by decide) (by decide)).1 (by decide)

/-- Claim C8: in both loaders a word of length outside 2 to 9 (for the candidate
loader: the stripped, uppercased word) is skipped — neither counted nor
added — while a word of length 2 to 9 passes the filter, is counted, and
reaches the sampler. -/
theorem c8_length_filtering (u : Nat → List Nat) (i : Nat → Bool) (n : List Nat)
    (f : Int) (line : List Nat) (rest : List (List Nat)) (t : Nat)
    (s : Finset (List Nat)) (raw word r2 : List Nat) :
    (((normalizeLine u i line).length < 2 ∨ 9 < (normalizeLine u i line).length) →
      candGo u i n f (line :: rest) t s = candGo u i n f rest t s)
    ∧ (2 ≤ (normalizeLine u i line).length → (normalizeLine u i line).length ≤ 9 →
      candGo u i n f (line :: rest) t s
        = match should_include (normalizeLine u i line) n f with
          | .error e => .error e
          | .ok true => candGo u i n f rest (t + 1) (insert (normalizeLine u i line) s)
          | .ok false => candGo u i n f rest (t + 1) s)
    ∧ (line ≠ [] → b64decode line = .ok raw →
      splitFirstEq (utf8DecodeReplace (xorFrom 0 raw)) = some (word, r2) →
      (containsSub [59, 49] r2 || containsSub [59, 50] r2) = false →
      ((word.length < 2 ∨ 9 < word.length) →
        superGo n f (line :: rest) t s = superGo n f rest t s)
      ∧ (2 ≤ word.length → word.length ≤ 9 →
        superGo n f (line :: rest) t s
          = match should_include word n f with
            | .error e => .error e
            | .ok true => superGo n f rest (t + 1) (insert word s)
            | .ok false => superGo n f rest (t + 1) s)) := by
  refine ⟨?_, ?_, ?_⟩
  · intro hlen
    rw [candGo]
    rw [if_pos (Or.inr (by omega))]
  · intro h2 h9
    rw [candGo]
    rw [if_neg ?_]
    rintro (hh | hh)
    · rw [hh] at h2; simp at h2
    · exact hh ⟨h2, h9⟩
  · intro hline hb hsplit hvar
    constructor
    · intro hlen
      rw [superGo]
      simp only [if_neg hline, hb, hsplit, hvar, Bool.false_eq_true, if_false]
      rw [if_neg (by omega)]
    · intro h2 h9
      rw [superGo]
      simp only [if_neg hline, hb, hsplit, hvar, Bool.false_eq_true, if_false]
      rw [if_pos ⟨h2, h9⟩]

theorem c8_witness :
    candGo asciiUpper asciiSpace [] 1 [[97]] 0 ∅ = candGo asciiUpper asciiSpace [] 1 [] 0 ∅
    ∧ superGo [] 1 [b64encode (xorFrom 0 (utf8Encode [67, 65, 84, 61]))] 0 ∅
        = .ok (1, {[67, 65, 84]}) := by
  constructor
  · exact (c8_length_filtering asciiUpper asciiSpace [] 1 [97] [] 0 ∅ [] [] []).1
      (by decide)
  · exact (((c8_length_filtering asciiUpper asciiSpace [] 1
      (b64encode (xorFrom 0 (utf8Encode [67, 65, 84, 61]))) [] 0 ∅
      (xorFrom 0 (utf8Encode [67, 65, 84, 61])) [67, 65, 84] []).2.2
      (by decide) (by decide) (by decide) (by decide)).2 (by decide) (by decide)).trans
      (by decide)

theorem startsWith_append (l r : List Nat) : startsWith l (l ++ r) = true := by
  induction l with
  | nil => rfl
  | cons c t ih => simpa [startsWith] using ih

theorem findSub_self (pat rest : List Nat) (h : pat ≠ []) :
    findSub pat (pat ++ rest) = some 0 := by
  cases pat with
  | nil => exact absurd rfl h
  | cons p ps =>
    show findSub (p :: ps) (p :: (ps ++ rest)) = some 0
    rw [findSub, if_pos (show startsWith (p :: ps) (p :: (ps ++ rest)) = true from
      startsWith_append (p :: ps) rest)]

theorem consHead_of_ne (c : Nat) (l : List Nat) : consHead c [l] = [c :: l] := rfl

theorem splitCRLF_no13 (l : List Nat) (h : ∀ c ∈ l, c ≠ 13) : splitCRLF l = [l] := by
  induction l using splitCRLF.induct with
  | case1 => rfl
  | case2 c => rfl
  | case3 c c2 cs hc ih =>
    exact absurd hc.1 (h c (List.mem_cons_self c (c2 :: cs)))
  | case4 c c2 cs hc ih =>
    rw [splitCRLF, if_neg hc, ih (fun x hx => h x (List.mem_cons_of_mem c hx)),
      consHead_of_ne]

theorem getD_mem_or_default (l : List Nat) (n : Nat) (d : Nat) :
    l.getD n d ∈ l ∨ l.getD n d = d := by
  induction l generalizing n with
  | nil => exact Or.inr rfl
  | cons a t ih =>
    cases n with
    | zero => exact Or.inl (List.mem_cons_self a t)
    | succ m =>
      rcases ih m with h | h
      · exact Or.inl (List.mem_cons_of_mem a h)
      · exact Or.inr h

theorem b64char_ne_13 (v : Nat) : b64char v ≠ 13 := by
  have hall : ∀ x ∈ b64Table, x ≠ 13 := by decide
  rw [b64char]
  rcases getD_mem_or_default b64Table v 65 with h | h
  · exact hall _ h
  · rw [h]; decide

theorem b64char_ne_61 (v : Nat) : b64char v ≠ 61 := by
  have hall : ∀ x ∈ b64Table, x ≠ 61 := by decide
  rw [b64char]
  rcases getD_mem_or_default b64Table v 65 with h | h
  · exact hall _ h
  · rw [h]; decide

theorem b64val_b64char : ∀ v, v < 64 → b64val (b64char v) = some v := by decide

theorem xorFrom_involution (bs : List Nat) : ∀ i, xorFrom i (xorFrom i bs) = bs := by
  induction bs with
  | nil => intro i; rfl
  | cons b t ih =>
    intro i
    rw [xorFrom, xorFrom, Nat.xor_cancel_right, ih (i + 1)]

theorem keyByte_lt (j : Nat) : KEY.getD j 0 < 256 := by
  have hall : ∀ x ∈ KEY, x < 256 := by decide
  rcases getD_mem_or_default KEY j 0 with h | h
  · exact hall _ h
  · rw [h]; decide

theorem xorFrom_lt (bs : List Nat) (h : ∀ b ∈ bs, b < 256) :
    ∀ i, ∀ x ∈ xorFrom i bs, x < 256 := by
  induction bs with
  | nil => intro i x hx; cases hx
  | cons b t ih =>
    intro i x hx
    rw [xorFrom] at hx
    rcases List.mem_cons.mp hx with rfl | hx
    · have h1 : b < 2 ^ 8 := h b (List.mem_cons_self b t)
      have h2 : KEY.getD (i % 8) 0 < 2 ^ 8 := keyByte_lt (i % 8)
      exact Nat.xor_lt_two_pow h1 h2
    · exact ih (fun y hy => h y (List.mem_cons_of_mem b hy)) (i + 1) x hx

theorem xorFrom_ne_nil (b : Nat) (t : List Nat) (i : Nat) : xorFrom i (b :: t) ≠ [] := by
  rw [xorFrom]; exact List.cons_ne_nil _ _

theorem a2b_data0 (pads pend v : Nat) (hv : v < 64) (cs : List Nat) :
    a2bBase64 0 pads pend (b64char v :: cs) = a2bBase64 1 pads v cs := by
  rw [a2bBase64, if_neg (b64char_ne_61 v), b64val_b64char v hv]

theorem a2b_data1 (pads pend v : Nat) (hv : v < 64) (cs : List Nat) :
    a2bBase64 1 pads pend (b64char v :: cs)
      = (a2bBase64 2 pads ((pend * 64 + v) % 16) cs).map ((pend * 64 + v) / 16 :: ·) := by
  rw [a2bBase64, if_neg (b64char_ne_61 v), b64val_b64char v hv]

theorem a2b_data2 (pads pend v : Nat) (hv : v < 64) (cs : List Nat) :
    a2bBase64 2 pads pend (b64char v :: cs)
      = (a2bBase64 3 pads ((pend * 64 + v) % 4) cs).map ((pend * 64 + v) / 4 :: ·) := by
  rw [a2bBase64, if_neg (b64char_ne_61 v), b64val_b64char v hv]

theorem a2b_data3 (pads pend v : Nat) (hv : v < 64) (cs : List Nat) :
    a2bBase64 3 pads pend (b64char v :: cs)
      = (a2bBase64 0 pads 0 cs).map ((pend * 64 + v) :: ·) := by
  rw [a2bBase64, if_neg (b64char_ne_61 v), b64val_b64char v hv]

theorem a2b_pad2a (pend : Nat) (cs : List Nat) :
    a2bBase64 2 0 pend (61 :: cs) = a2bBase64 2 1 pend cs := by
  rw [a2bBase64, if_pos rfl, if_pos (by omega), if_neg (by omega)]

theorem a2b_pad2b (pend : Nat) (cs : List Nat) :
    a2bBase64 2 1 pend (61 :: cs) = .ok [] := by
  rw [a2bBase64, if_pos rfl, if_pos (by omega), if_pos (by omega)]

theorem a2b_pad3 (pads pend : Nat) (cs : List Nat) :
    a2bBase64 3 pads pend (61 :: cs) = .ok [] := by
  rw [a2bBase64, if_pos rfl, if_pos (by omega), if_pos (by omega)]

theorem a2b_encode (bs : List Nat) (h : ∀ b ∈ bs, b < 256) :
    a2bBase64 0 0 0 (b64encode bs) = .ok bs := by
  induction bs using b64encode.induct with
  | case1 a b c rest ih =>
    have ha : a < 256 := h a (by simp)
    have hb : b < 256 := h b (by simp)
    have hc : c < 256 := h c (by simp)
    rw [b64encode, a2b_data0 _ _ _ (by omega), a2b_data1 _ _ _ (by omega),
      a2b_data2 _ _ _ (by omega), a2b_data3 _ _ _ (by omega),
      ih (fun x hx => h x (by simp [hx]))]
    have e1 : (a / 4 * 64 + (a % 4 * 16 + b / 16)) / 16 = a := by omega
    have e2 : (a / 4 * 64 + (a % 4 * 16 + b / 16)) % 16 = b / 16 := by omega
    rw [e1, e2]
    have e3 : (b / 16 * 64 + (b % 16 * 4 + c / 64)) / 4 = b := by omega
    have e4 : (b / 16 * 64 + (b % 16 * 4 + c / 64)) % 4 = c / 64 := by omega
    rw [e3, e4]
    have e5 : c / 64 * 64 + c % 64 = c := by omega
    rw [e5]
    rfl
  | case2 a b =>
    have ha : a < 256 := h a (by simp)
    have hb : b < 256 := h b (by simp)
    rw [b64encode, a2b_data0 _ _ _ (by omega), a2b_data1 _ _ _ (by omega),
      a2b_data2 _ _ _ (by omega), a2b_pad3]
    have e1 : (a / 4 * 64 + (a % 4 * 16 + b / 16)) / 16 = a := by omega
    have e2 : (a / 4 * 64 + (a % 4 * 16 + b / 16)) % 16 = b / 16 := by omega
    rw [e1, e2]
    have e3 : (b / 16 * 64 + b % 16 * 4) / 4 = b := by omega
    rw [e3]
    rfl
  | case3 a =>
    have ha : a < 256 := h a (by simp)
    rw [b64encode, a2b_data0 _ _ _ (by omega), a2b_data1 _ _ _ (by omega),
      a2b_pad2a, a2b_pad2b]
    have e1 : (a / 4 * 64 + a % 4 * 16) / 16 = a := by omega
    rw [e1]
    rfl
  | case4 => rfl

theorem b64decode_encode (bs : List Nat) (h : ∀ b ∈ bs, b < 256) :
    b64decode (b64encode bs) = .ok bs :=
  a2b_encode bs h

theorem b64encode_ne_13 (bs : List Nat) : ∀ x ∈ b64encode bs, x ≠ 13 := by
  induction bs using b64encode.induct with
  | case1 a b c rest ih =>
    intro x hx
    rw [b64encode] at hx
    simp only [List.mem_cons] at hx
    rcases hx with rfl | rfl | rfl | rfl | hx
    · exact b64char_ne_13 _
    · exact b64char_ne_13 _
    · exact b64char_ne_13 _
    · exact b64char_ne_13 _
    · exact ih x hx
  | case2 a b =>
    intro x hx
    rw [b64encode] at hx
    simp only [List.mem_cons, List.not_mem_nil, or_false] at hx
    rcases hx with rfl | rfl | rfl | rfl
    · exact b64char_ne_13 _
    · exact b64char_ne_13 _
    · exact b64char_ne_13 _
    · decide
  | case3 a =>
    intro x hx
    rw [b64encode] at hx
    simp only [List.mem_cons, List.not_mem_nil, or_false] at hx
    rcases hx with rfl | rfl | rfl | rfl
    · exact b64char_ne_13 _
    · exact b64char_ne_13 _
    · decide
    · decide
  | case4 =>
    intro x hx
    cases hx

theorem b64encode_ne_nil (bs : List Nat) (h : bs ≠ []) : b64encode bs ≠ [] := by
  cases bs with
  | nil => exact absurd rfl h
  | cons a t =>
    cases t with
    | nil => rw [b64encode]; exact List.cons_ne_nil _ _
    | cons b t2 =>
      cases t2 with
      | nil => rw [b64encode]; exact List.cons_ne_nil _ _
      | cons c t3 => rw [b64encode]; exact List.cons_ne_nil _ _

theorem utf8Decode_one (b : Nat) (rest : List Nat) (h : b < 128) :
    utf8DecodeReplace (b :: rest) = b :: utf8DecodeReplace rest := by
  cases rest with
  | nil => rw [utf8DecodeReplace.eq_2, if_pos h]
  | cons r1 t1 =>
    cases t1 with
    | nil => rw [utf8DecodeReplace.eq_3, if_pos h]
    | cons r2 t2 =>
      cases t2 with
      | nil => rw [utf8DecodeReplace.eq_4, if_pos h]
      | cons r3 rs => rw [utf8DecodeReplace.eq_5, if_pos h]

theorem utf8Decode_two (b1 b2 : Nat) (rest : List Nat) (h1 : 194 ≤ b1) (h2 : b1 < 224)
    (h3 : 128 ≤ b2) (h4 : b2 < 192) :
    utf8DecodeReplace (b1 :: b2 :: rest)
      = ((b1 - 192) * 64 + (b2 - 128)) :: utf8DecodeReplace rest := by
  cases rest with
  | nil =>
    rw [utf8DecodeReplace.eq_3, if_neg (by omega), if_neg (by omega), if_pos (by omega),
      if_pos ⟨h3, h4⟩]
  | cons r1 t1 =>
    cases t1 with
    | nil =>
      rw [utf8DecodeReplace.eq_4, if_neg (by omega), if_neg (by omega), if_pos (by omega),
        if_pos ⟨h3, h4⟩]
    | cons r2 t2 =>
      rw [utf8DecodeReplace.eq_5, if_neg (by omega), if_neg (by omega), if_pos (by omega),
        if_pos ⟨h3, h4⟩]

theorem utf8Decode_three (b1 b2 b3 : Nat) (rest : List Nat) (h1 : 224 ≤ b1)
    (h2 : b1 < 240)
    (hg : if b1 = 224 then 160 ≤ b2 ∧ b2 < 192
          else if b1 = 237 then 128 ≤ b2 ∧ b2 < 160 else 128 ≤ b2 ∧ b2 < 192)
    (h3 : 128 ≤ b3) (h4 : b3 < 192) :
    utf8DecodeReplace (b1 :: b2 :: b3 :: rest)
      = ((b1 - 224) * 4096 + (b2 - 128) * 64 + (b3 - 128)) :: utf8DecodeReplace rest := by
  cases rest with
  | nil =>
    rw [utf8DecodeReplace.eq_4, if_neg (by omega), if_neg (by omega), if_neg (by omega),
      if_pos (by omega), if_pos hg, if_pos ⟨h3, h4⟩]
  | cons r1 t1 =>
    rw [utf8DecodeReplace.eq_5, if_neg (by omega), if_neg (by omega), if_neg (by omega),
      if_pos (by omega), if_pos hg, if_pos ⟨h3, h4⟩]

theorem utf8Decode_four (b1 b2 b3 b4 : Nat) (rest : List Nat) (h1 : 240 ≤ b1)
    (h2 : b1 < 245)
    (hg : if b1 = 240 then 144 ≤ b2 ∧ b2 < 192
          else if b1 = 244 then 128 ≤ b2 ∧ b2 < 144 else 128 ≤ b2 ∧ b2 < 192)
    (h3 : 128 ≤ b3) (h4 : b3 < 192) (h5 : 128 ≤ b4) (h6 : b4 < 192) :
    utf8DecodeReplace (b1 :: b2 :: b3 :: b4 :: rest)
      = ((b1 - 240) * 262144 + (b2 - 128) * 4096 + (b3 - 128) * 64 + (b4 - 128))
          :: utf8DecodeReplace rest := by
  rw [utf8DecodeReplace.eq_5, if_neg (by omega), if_neg (by omega), if_neg (by omega),
    if_neg (by omega), if_pos (by omega), if_pos hg, if_pos ⟨h3, h4⟩, if_pos ⟨h5, h6⟩]

theorem utf8_char_roundtrip (c : Nat) (hv : validScalar c) (rest : List Nat) :
    utf8DecodeReplace (utf8EncodeChar c ++ rest) = c :: utf8DecodeReplace rest := by
  by_cases h1 : c < 128
  · rw [utf8EncodeChar, if_pos h1]
    simp only [List.cons_append, List.nil_append]
    rw [utf8Decode_one c rest h1]
  · by_cases h2 : c < 2048
    · rw [utf8EncodeChar, if_neg h1, if_pos h2]
      simp only [List.cons_append, List.nil_append]
      rw [utf8Decode_two _ _ rest (by omega) (by omega) (by omega) (by omega)]
      congr 1
      omega
    · by_cases h3 : c < 65536
      · have hs : c < 55296 ∨ 57343 < c := by
          rcases hv with h | ⟨ha, hb⟩
          · exact Or.inl h
          · exact Or.inr ha
        rw [utf8EncodeChar, if_neg h1, if_neg h2, if_pos h3]
        simp only [List.cons_append, List.nil_append]
        have hg : (if 224 + c / 4096 = 224 then
              160 ≤ 128 + c / 64 % 64 ∧ 128 + c / 64 % 64 < 192
            else if 224 + c / 4096 = 237 then
              128 ≤ 128 + c / 64 % 64 ∧ 128 + c / 64 % 64 < 160
            else 128 ≤ 128 + c / 64 % 64 ∧ 128 + c / 64 % 64 < 192) := by
          split_ifs with g1 g2 <;> constructor <;> omega
        rw [utf8Decode_three _ _ _ rest (by omega) (by omega) hg (by omega) (by omega)]
        congr 1
        omega
      · have h4 : c < 1114112 := by
          rcases hv with h | ⟨ha, hb⟩
          · omega
          · omega
        rw [utf8EncodeChar, if_neg h1, if_neg h2, if_neg h3]
        simp only [List.cons_append, List.nil_append]
        have hg : (if 240 + c / 262144 = 240 then
              144 ≤ 128 + c / 4096 % 64 ∧ 128 + c / 4096 % 64 < 192
            else if 240 + c / 262144 = 244 then
              128 ≤ 128 + c / 4096 % 64 ∧ 128 + c / 4096 % 64 < 144
            else 128 ≤ 128 + c / 4096 % 64 ∧ 128 + c / 4096 % 64 < 192) := by
          split_ifs with g1 g2 <;> constructor <;> omega
        rw [utf8Decode_four _ _ _ _ rest (by omega) (by omega) hg (by omega) (by omega)
          (by omega) (by omega)]
        congr 1
        omega

theorem utf8_roundtrip (s : List Nat) (hv : ∀ c ∈ s, validScalar c) :
    utf8DecodeReplace (utf8Encode s) = s := by
  induction s with
  | nil => rfl
  | cons c t ih =>
    show utf8DecodeReplace (utf8EncodeChar c ++ utf8Encode t) = c :: t
    rw [utf8_char_roundtrip c (hv c (List.mem_cons_self c t)),
      ih (fun x hx => hv x (List.mem_cons_of_mem c hx))]

theorem splitFirstEq_append (w r : List Nat) (h : 61 ∉ w) :
    splitFirstEq (w ++ 61 :: r) = some (w, r) := by
  induction w with
  | nil => rw [List.nil_append, splitFirstEq, if_pos rfl]
  | cons c t ih =>
    have hc : c ≠ 61 := fun hh => h (hh ▸ List.mem_cons_self c t)
    rw [List.cons_append, splitFirstEq, if_neg hc,
      ih (fun hh => h (List.mem_cons_of_mem c hh))]
    rfl

theorem utf8EncodeChar_lt (c : Nat) (hv : validScalar c) :
    ∀ x ∈ utf8EncodeChar c, x < 256 := by
  have h4 : c < 1114112 := by
    rcases hv with h | ⟨ha, hb⟩ <;> omega
  intro x hx
  rw [utf8EncodeChar] at hx
  split_ifs at hx with a b cc
  · simp only [List.mem_singleton] at hx; omega
  · simp only [List.mem_cons, List.not_mem_nil, or_false] at hx
    rcases hx with rfl | rfl <;> omega
  · simp only [List.mem_cons, List.not_mem_nil, or_false] at hx
    rcases hx with rfl | rfl | rfl <;> omega
  · simp only [List.mem_cons, List.not_mem_nil, or_false] at hx
    rcases hx with rfl | rfl | rfl | rfl <;> omega

theorem utf8Encode_lt (s : List Nat) (hv : ∀ c ∈ s, validScalar c) :
    ∀ x ∈ utf8Encode s, x < 256 := by
  intro x hx
  rw [utf8Encode] at hx
  obtain ⟨c, hc, hxc⟩ := List.mem_flatMap.mp hx
  exact utf8EncodeChar_lt c (hv c hc) x hxc

theorem utf8EncodeChar_ne_nil (c : Nat) : utf8EncodeChar c ≠ [] := by
  rw [utf8EncodeChar]; split_ifs <;> simp

theorem utf8Encode_ne_nil (s : List Nat) (h : s ≠ []) : utf8Encode s ≠ [] := by
  cases s with
  | nil => exact absurd rfl h
  | cons c t =>
    show utf8EncodeChar c ++ utf8Encode t ≠ []
    simp [utf8EncodeChar_ne_nil c]

theorem xorFrom_ne_nil2 (l : List Nat) (h : l ≠ []) (i : Nat) : xorFrom i l ≠ [] := by
  cases l with
  | nil => exact absurd rfl h
  | cons b t => exact xorFrom_ne_nil b t i

/-- Claim C6: a dictionary stream consisting of the `[Words]` marker (with its
CRLF) followed by the base64 encoding of the XOR-obfuscated UTF-8 bytes of
`WORD=`, decoded at denominator 1, yields exactly that word in the
reference set with total count 1 — for every word of 2 to 9 scalar code
points containing no `=`. -/
theorem c6_roundtrip_decode (w : List Nat) (h2 : 2 ≤ w.length) (h9 : w.length ≤ 9)
    (hne : 61 ∉ w) (hv : ∀ c ∈ w, validScalar c) (nonce : List Nat) :
    load_superdic (wordsMarker ++ b64encode (xorFrom 0 (utf8Encode (w ++ [61])))) nonce 1
      = .ok (1, {w}) := by
  have hv2 : ∀ c ∈ w ++ [61], validScalar c := by
    intro c hc
    rcases List.mem_append.mp hc with h | h
    · exact hv c h
    · simp only [List.mem_singleton] at h
      subst h
      decide
  have hw61 : w ++ [61] ≠ [] := by simp
  have hnil : b64encode (xorFrom 0 (utf8Encode (w ++ [61]))) ≠ [] :=
    b64encode_ne_nil _ (xorFrom_ne_nil2 _ (utf8Encode_ne_nil _ hw61) 0)
  have hdec : b64decode (b64encode (xorFrom 0 (utf8Encode (w ++ [61]))))
      = .ok (xorFrom 0 (utf8Encode (w ++ [61]))) :=
    b64decode_encode _ (xorFrom_lt _ (utf8Encode_lt _ hv2) 0)
  have hsplit : splitFirstEq (utf8DecodeReplace
      (xorFrom 0 (xorFrom 0 (utf8Encode (w ++ [61]))))) = some (w, []) := by
    rw [xorFrom_involution, utf8_roundtrip _ hv2]
    exact splitFirstEq_append w [] hne
  unfold load_superdic
  rw [findSub_self wordsMarker _ (by decide)]
  show superGo nonce 1 (splitCRLF (List.drop 9
    (wordsMarker ++ b64encode (xorFrom 0 (utf8Encode (w ++ [61])))))) 0 ∅ = .ok (1, {w})
  rw [List.drop_left' (by rfl), splitCRLF_no13 _ (b64encode_ne_13 _), superGo,
    if_neg hnil]
  simp only [hdec, hsplit]
  rw [if_neg (by decide), if_pos ⟨h2, h9⟩, should_include_one, superGo]
  rfl

theorem c6_witness :
    load_superdic
      (wordsMarker ++ b64encode (xorFrom 0 (utf8Encode ([67, 65, 84] ++ [61])))) [] 1
      = .ok (1, {[67, 65, 84]}) :=
  c6_roundtrip_decode [67, 65, 84] (by decide) (by decide) (by decide) (by decide) []
